import Mathlib

/-!
Verification of the LC3 frame-chunking JNI bridge (`liblc3.cpp`).

The two stream entry points `decodeLC3` and `encodeLC3` walk an input byte
buffer in fixed strides, invoke the single-frame LC3 primitive against one
live codec state, and accumulate per-frame outputs into a pre-sized output
buffer.  The denoise entry point `rnNoise` applies `rnnoise_process_frame`
in place to a caller buffer.

Modelling conventions:
* byte buffers are `List Nat`; machine `int` arithmetic that can go negative
  (the loop guards `i <= length - frameSize`, where the `uint16_t` frame size
  promotes to `int`) is carried out in `Int`;
* the external LC3 library is opaque: a frame primitive is abstracted as
  `step : σ → List Nat → CodecOut σ` giving the successor codec state, the
  bytes the primitive writes, and the `int` status it returns (which the
  source discards); `fs` abstracts the `int` value the library reports from
  `lc3_frame_samples(dtUs, srHz)`, and the `uint16_t` stores reduce it
  modulo 2 ^ 16 exactly as the C conversions do;
* the JNI boundary is modelled by its observables: the returned array's
  content, the caller's input array content after the call, the final codec
  state, and a trace of state-lifecycle and per-frame codec events.
-/

namespace LibLC3

/-- Frame duration in microseconds: `int dtUs = 10000;` in both entry points. -/
def dtUs : Nat := 10000

/-- Sample rate in Hz: `int srHz = 16000;` in both entry points. -/
def srHz : Nat := 16000

/-- Decode path: `uint16_t sampleOfFrames = lc3_frame_samples(dtUs, srHz);`.
`fs` is the `int` the external library reports for the fixed geometry; the
store into a `uint16_t` reduces it modulo 2 ^ 16. -/
def sampleOfFrames (fs : Int) : Nat := (fs % 65536).toNat

/-- Decode path: `uint16_t bytesOfFrames = sampleOfFrames*2;` (16-bit PCM,
two bytes per sample; `int` arithmetic truncated back into a `uint16_t`). -/
def bytesOfFrames (fs : Int) : Nat := (sampleOfFrames fs * 2) % 65536

/-- Encode path: `uint16_t samplesPerFrame = lc3_frame_samples(dtUs, srHz);`. -/
def samplesPerFrame (fs : Int) : Nat := (fs % 65536).toNat

/-- Encode path: `uint16_t bytesPerFrame = samplesPerFrame * 2;`. -/
def bytesPerFrame (fs : Int) : Nat := (samplesPerFrame fs * 2) % 65536

/-- Decode path: `uint16_t output_byte_count = 20;` — the encoded LC3 frame
size consumed per iteration by `decodeLC3`. -/
def output_byte_count : Nat := 20

/-- Encode path: `uint16_t encodedFrameSize = 20;` — the encoded LC3 frame
size produced per iteration by `encodeLC3`. -/
def encodedFrameSize : Nat := 20

/-- One invocation of the opaque single-frame codec primitive (`lc3_decode`
or `lc3_encode`): the successor codec state held in the `malloc`ed state
memory, the bytes the primitive writes into its output pointer, and the
`int` status it returns (discarded by the source). -/
structure CodecOut (σ : Type) where
  st : σ
  bytes : List Nat
  status : Int

/-- Observable events of one stream call: codec-state setup
(`lc3_setup_decoder` / `lc3_setup_encoder` on the freshly `malloc`ed state
memory), one per-frame codec invocation (input offset, output offset, the
status the primitive returned), and the release of the state memory
(`free(decMem)` / `free(encMem)`). -/
inductive Ev where
  | setupDecoder : Ev
  | setupEncoder : Ev
  | frame : Nat → Nat → Int → Ev
  | freeState : Ev
  deriving DecidableEq

/-- `memcpy(buf + off, data, data.length)`: overwrite `buf` starting at
`off` with `data`, leaving the rest unchanged. -/
def writeBytes (buf : List Nat) (off : Nat) (data : List Nat) : List Nat :=
  buf.take off ++ data ++ buf.drop (off + data.length)

/-- Mutable state of the decode loop: the decoder state memory, the scratch
frame buffer `outBuf`, the accumulated `outArray`, the running output
`offset`, and the event trace. -/
structure DecSt (σ : Type) where
  dec : σ
  outBuf : List Nat
  outArray : List Nat
  offset : Nat
  trace : List Ev

/-- The decode chunking loop of `decodeLC3`:
`for (int i = 0; i <= lc3Length - output_byte_count; i += output_byte_count)`.
Each iteration feeds the 20-byte slice at `i` to `lc3_decode`, which writes
the frame's PCM into the scratch `outBuf`; then
`memcpy(outArray + offset, outBuf, bytesOfFrames)` copies `O` bytes out and
`memset(outBuf, 0, bytesOfFrames)` clears the scratch.  The guard subtraction
happens in `int` (the `uint16_t` operand promotes), hence the `Int`
comparison. -/
def decLoop {σ : Type} (step : σ → List Nat → CodecOut σ) (input : List Nat)
    (O : Nat) (s : DecSt σ) (i : Nat) : DecSt σ :=
  if h : (i : Int) ≤ (input.length : Int) - (output_byte_count : Int) then
    let r := step s.dec ((input.drop i).take output_byte_count)
    let buf1 := writeBytes s.outBuf 0 r.bytes
    decLoop step input O
      { dec := r.st
        outBuf := writeBytes buf1 0 (List.replicate O 0)
        outArray := writeBytes s.outArray s.offset (buf1.take O)
        offset := s.offset + O
        trace := s.trace ++ [Ev.frame i s.offset r.status] }
      (i + output_byte_count)
  else s
termination_by input.length - i
decreasing_by
  simp only [output_byte_count] at h ⊢
  omega

/-- Observables of one stream call: the content of the returned Java array,
the caller's input array content after the call, the event trace, and the
codec state at release time. -/
structure CallResult (σ : Type) where
  result : List Nat
  callerInput : List Nat
  trace : List Ev
  final : σ

/-- `Java_com_augmentos_smartglassesmanager_cpp_L3cCpp_decodeLC3`.
`init` abstracts the decoder state produced by
`lc3_setup_decoder(dtUs, srHz, 0, decMem)`.  The output array is sized
`outSize = (lc3Length / output_byte_count) * bytesOfFrames` up front;
`NewByteArray(outSize)` + `SetByteArrayRegion` copy `outSize` bytes of
`outArray` into the returned array; `ReleaseByteArrayElements(..., JNI_ABORT)`
discards the native copy without write-back (and the loop never writes the
input), so the caller's array keeps its original content; `free(decMem)`
releases the state after the loop and before the return.  The indeterminate
initial contents of the `malloc`ed buffers are modelled as zeros: under the
codec contract every returned byte is overwritten before it is observed. -/
def decodeLC3 {σ : Type} (step : σ → List Nat → CodecOut σ) (init : σ)
    (fs : Int) (lc3Data : List Nat) : CallResult σ :=
  let O := bytesOfFrames fs
  let outSize := (lc3Data.length / output_byte_count) * O
  let s := decLoop step lc3Data O
    { dec := init
      outBuf := List.replicate O 0
      outArray := List.replicate outSize 0
      offset := 0
      trace := [Ev.setupDecoder] } 0
  { result := s.outArray.take outSize
    callerInput := lc3Data
    trace := s.trace ++ [Ev.freeState]
    final := s.dec }

/-- Mutable state of the encode loop: the encoder state memory, the
accumulated `encodedData` array, the running output `offset`, and the event
trace (the encode loop has no scratch buffer: `lc3_encode` writes directly
to `encodedData + offset`). -/
structure EncSt (σ : Type) where
  enc : σ
  outArray : List Nat
  offset : Nat
  trace : List Ev

/-- The encode chunking loop of `encodeLC3`:
`for (int i = 0; i <= pcmLength - bytesPerFrame; i += bytesPerFrame)`.
Each iteration feeds the `F`-byte PCM slice at `i` to `lc3_encode`, which
writes its `encodedFrameSize`-byte result at `encodedData + offset`.
`hF` records that the stride is positive (with `bytesPerFrame = 0` the C
loop would not terminate and the size division would be undefined). -/
def encLoop {σ : Type} (step : σ → List Nat → CodecOut σ) (input : List Nat)
    (F : Nat) (hF : 0 < F) (s : EncSt σ) (i : Nat) : EncSt σ :=
  if h : (i : Int) ≤ (input.length : Int) - (F : Int) then
    let r := step s.enc ((input.drop i).take F)
    encLoop step input F hF
      { enc := r.st
        outArray := writeBytes s.outArray s.offset r.bytes
        offset := s.offset + encodedFrameSize
        trace := s.trace ++ [Ev.frame i s.offset r.status] }
      (i + F)
  else s
termination_by input.length - i
decreasing_by omega

/-- `Java_com_augmentos_smartglassesmanager_cpp_L3cCpp_encodeLC3`.
`init` abstracts the encoder state produced by
`lc3_setup_encoder(dtUs, srHz, srHz, encMem)`.  The output array is sized
`outputSize = (pcmLength / bytesPerFrame) * encodedFrameSize` up front;
marshalling and release mirror `decodeLC3` (`JNI_ABORT` on the input,
`free(encMem)` after the loop). -/
def encodeLC3 {σ : Type} (step : σ → List Nat → CodecOut σ) (init : σ)
    (fs : Int) (hF : 0 < bytesPerFrame fs) (pcmData : List Nat) :
    CallResult σ :=
  let F := bytesPerFrame fs
  let outputSize := (pcmData.length / F) * encodedFrameSize
  let s := encLoop step pcmData F hF
    { enc := init
      outArray := List.replicate outputSize 0
      offset := 0
      trace := [Ev.setupEncoder] } 0
  { result := s.outArray.take outputSize
    callerInput := pcmData
    trace := s.trace ++ [Ev.freeState]
    final := s.enc }

/-- Result of processing a run of consecutive frames sequentially: the codec
state after the run, the per-frame output slices in frame order, and the
per-frame events. -/
structure FramesOut (σ : Type) where
  final : σ
  outs : List (List Nat)
  evs : List Ev

/-- The sequential chunking of spec §4.3, used as the reference the loops
are proved equal to: for `m` frames starting at frame index `k`, frame `j`
consumes the input slice starting at `j * F` of length `F`, the codec state
is threaded from each frame into the next, and frame `j`'s output occupies
the output slice starting at `j * O`. -/
def chunkFrames {σ : Type} (step : σ → List Nat → CodecOut σ)
    (input : List Nat) (F O : Nat) (d : σ) (k : Nat) : Nat → FramesOut σ
  | 0 => { final := d, outs := [], evs := [] }
  | m + 1 =>
    let r := step d ((input.drop (k * F)).take F)
    let rest := chunkFrames step input F O r.st (k + 1) m
    { final := rest.final
      outs := r.bytes :: rest.outs
      evs := Ev.frame (k * F) (k * O) r.status :: rest.evs }

/-- The codec state after the first `j` frames of the sequential chunking:
the state that frame `j`'s codec invocation receives. -/
def stateAfter {σ : Type} (step : σ → List Nat → CodecOut σ)
    (input : List Nat) (F O : Nat) (init : σ) (j : Nat) : σ :=
  (chunkFrames step input F O init 0 j).final

/-- Replace the status a codec primitive reports by 0 (success), leaving its
state transition and output bytes unchanged. -/
def ignoreStatus {σ : Type} (step : σ → List Nat → CodecOut σ) :
    σ → List Nat → CodecOut σ :=
  fun d f => { st := (step d f).st, bytes := (step d f).bytes, status := 0 }

/-- Recognize a per-frame codec invocation event. -/
def isFrameEv : Ev → Bool
  | Ev.frame _ _ _ => true
  | _ => false

/-- A Java `float[]` object: an object identity and its contents.  The
sample type is abstract (`α`); the denoise claims do not depend on float
arithmetic. -/
structure JFloatArray (α : Type) where
  ref : Nat
  data : List α

/-- Record of the one `rnnoise_process_frame(st, out, in)` invocation a
`rnNoise` call performs: the object passed as the output pointer, the object
passed as the input pointer, and the frame content read from it. -/
structure RnCall (α : Type) where
  outRef : Nat
  inRef : Nat
  frameArg : List α

/-- Observables of one `rnNoise` call: the returned array object, the
caller's array after the call, the denoiser state after the call, and the
record of the library invocation performed. -/
structure RnResult (σ α : Type) where
  returned : JFloatArray α
  callerArray : JFloatArray α
  newState : σ
  call : RnCall α

/-- `Java_com_example_demo_1ai_1even_cpp_Cpp_rnNoise`.  `proc` abstracts
`rnnoise_process_frame` under in-place aliasing: from the denoiser state and
the buffer content it yields the successor state and the content the library
leaves in the buffer.  The source pins the buffer
(`GetFloatArrayElements`), calls
`rnnoise_process_frame((DenoiseState*)st, inputArray, inputArray)` with the
same pointer as output and input, releases with mode 0 (content written
back into the caller's object), and returns the very `input` object.  There
is no length check of any kind before the library call. -/
def rnNoise {σ α : Type} (proc : σ → List α → σ × List α) (st : σ)
    (input : JFloatArray α) : RnResult σ α :=
  let r := proc st input.data
  { returned := { ref := input.ref, data := r.2 }
    callerArray := { ref := input.ref, data := r.2 }
    newState := r.1
    call := { outRef := input.ref, inRef := input.ref, frameArg := input.data } }

/-- Modelled from the spec: the denoiser's fixed native frame size — "a
compile-time/library constant, not caller-supplied".  The RNNoise library
(`rnnoise.h` is not part of this repository's sources) processes frames of
480 samples. -/
def rnFrameSize : Nat := 480

/-- A concrete decode-side codec primitive used to instantiate theorems: it
keeps no state, writes one 320-byte zero frame, and reports success. -/
def wStepD : Unit → List Nat → CodecOut Unit :=
  fun _ _ => { st := (), bytes := List.replicate 320 0, status := 0 }

/-- A concrete encode-side codec primitive used to instantiate theorems: it
keeps no state, writes one 20-byte zero frame, and reports success. -/
def wStepE : Unit → List Nat → CodecOut Unit :=
  fun _ _ => { st := (), bytes := List.replicate 20 0, status := 0 }

/-- A concrete codec primitive that reports failure (status `-1`) on every
frame while still writing a 320-byte frame. -/
def failStep : Unit → List Nat → CodecOut Unit :=
  fun _ _ => { st := (), bytes := List.replicate 320 0, status := -1 }

/-- A concrete denoiser primitive that returns the buffer unchanged. -/
def idProc : Unit → List Int → Unit × List Int := fun s f => (s, f)

/-- A concrete denoiser primitive that increments every sample. -/
def incrProc : Unit → List Int → Unit × List Int :=
  fun s f => (s, f.map (fun x => x + 1))

/-- A concrete 40-byte decode input (two complete 20-byte frames). -/
def wInput : List Nat := List.replicate 40 1

/-- A concrete 25-byte decode input (one complete frame plus a 5-byte
remainder). -/
def wInput25 : List Nat := List.replicate 25 3

/-- A concrete 320-byte PCM input (exactly one encode frame). -/
def wPcm : List Nat := List.replicate 320 2

theorem writeBytes_nil (buf : List Nat) (off : Nat) :
    writeBytes buf off [] = buf := by
  simp only [writeBytes, List.length_nil, Nat.add_zero, List.nil_append,
    List.append_nil]
  exact List.take_append_drop off buf

theorem writeBytes_length (buf data : List Nat) (off : Nat)
    (h : off + data.length ≤ buf.length) :
    (writeBytes buf off data).length = buf.length := by
  simp only [writeBytes, List.length_append, List.length_take, List.length_drop]
  omega

theorem writeBytes_full (buf data : List Nat) (h : data.length = buf.length) :
    writeBytes buf 0 data = data := by
  simp [writeBytes, h, List.drop_length]

theorem writeBytes_append (buf a b : List Nat) (off : Nat)
    (h : off ≤ buf.length) :
    writeBytes (writeBytes buf off a) (off + a.length) b
      = writeBytes buf off (a ++ b) := by
  have ht : (buf.take off).length = off := by
    simp only [List.length_take]
    omega
  simp only [writeBytes, List.length_append, List.append_assoc]
  rw [List.take_append_eq_append_take, ht, Nat.add_sub_cancel_left,
    List.take_of_length_le (by omega : (buf.take off).length ≤ off + a.length),
    List.take_left]
  rw [List.drop_append_eq_append_drop, ht,
    List.drop_eq_nil_of_le (by omega : (buf.take off).length ≤ off + a.length + b.length)]
  have h2 : off + a.length + b.length - off = a.length + b.length := by omega
  rw [h2, List.drop_append_eq_append_drop,
    List.drop_eq_nil_of_le (by omega : a.length ≤ a.length + b.length),
    Nat.add_sub_cancel_left, List.drop_drop]
  have h3 : off + a.length + b.length = off + (a.length + b.length) := by omega
  simp [List.append_assoc, h3]

theorem loopGuard_iff (L F k : Nat) (hF : 0 < F) :
    ((k * F : Nat) : Int) ≤ (L : Int) - (F : Int) ↔ k < L / F := by
  rw [Nat.lt_iff_add_one_le, Nat.le_div_iff_mul_le hF, Nat.add_mul, Nat.one_mul]
  generalize k * F = a
  omega

theorem chunkFrames_outs_length {σ : Type} (step : σ → List Nat → CodecOut σ)
    (input : List Nat) (F O : Nat) :
    ∀ (m k : Nat) (d : σ),
      (chunkFrames step input F O d k m).outs.length = m := by
  intro m
  induction m with
  | zero => intro k d; rfl
  | succ m ih =>
    intro k d
    simp [chunkFrames, ih]

theorem chunkFrames_evs_length {σ : Type} (step : σ → List Nat → CodecOut σ)
    (input : List Nat) (F O : Nat) :
    ∀ (m k : Nat) (d : σ),
      (chunkFrames step input F O d k m).evs.length = m := by
  intro m
  induction m with
  | zero => intro k d; rfl
  | succ m ih =>
    intro k d
    simp [chunkFrames, ih]

theorem chunkFrames_outs_sizes {σ : Type} (step : σ → List Nat → CodecOut σ)
    (input : List Nat) (F O : Nat)
    (hstep : ∀ (d : σ) (f : List Nat), ((step d f).bytes).length = O) :
    ∀ (m k : Nat) (d : σ),
      ∀ x ∈ (chunkFrames step input F O d k m).outs, x.length = O := by
  intro m
  induction m with
  | zero => intro k d x hx; simp [chunkFrames] at hx
  | succ m ih =>
    intro k d x hx
    simp only [chunkFrames, List.mem_cons] at hx
    rcases hx with hx | hx
    · rw [hx]; exact hstep d _
    · exact ih (k + 1) _ x hx

theorem flatten_length_uniform (ls : List (List Nat)) (O : Nat)
    (h : ∀ x ∈ ls, x.length = O) :
    ls.flatten.length = ls.length * O := by
  induction ls with
  | nil => simp
  | cons x t ih =>
    have hx : x.length = O := h x (List.mem_cons_self x t)
    have ht : ∀ y ∈ t, y.length = O := fun y hy => h y (List.mem_cons_of_mem x hy)
    simp only [List.flatten_cons, List.length_append, List.length_cons, hx, ih ht,
      Nat.succ_mul]
    omega

theorem chunkFrames_split {σ : Type} (step : σ → List Nat → CodecOut σ)
    (input : List Nat) (F O : Nat) :
    ∀ (m1 m2 : Nat) (d : σ) (k : Nat),
      chunkFrames step input F O d k (m1 + m2)
        = { final := (chunkFrames step input F O
              ((chunkFrames step input F O d k m1).final) (k + m1) m2).final
            outs := (chunkFrames step input F O d k m1).outs
              ++ (chunkFrames step input F O
                ((chunkFrames step input F O d k m1).final) (k + m1) m2).outs
            evs := (chunkFrames step input F O d k m1).evs
              ++ (chunkFrames step input F O
                ((chunkFrames step input F O d k m1).final) (k + m1) m2).evs } := by
  intro m1
  induction m1 with
  | zero =>
    intro m2 d k
    simp [chunkFrames]
  | succ m1 ih =>
    intro m2 d k
    have hadd : m1 + 1 + m2 = (m1 + m2) + 1 := by omega
    rw [hadd]
    simp only [chunkFrames]
    rw [ih m2 _ (k + 1)]
    have hk : k + (m1 + 1) = (k + 1) + m1 := by omega
    simp [chunkFrames, hk]

theorem chunkFrames_evs_mem {σ : Type} (step : σ → List Nat → CodecOut σ)
    (input : List Nat) (F O : Nat) :
    ∀ (m k : Nat) (d : σ) (e : Ev),
      e ∈ (chunkFrames step input F O d k m).evs →
        ∃ j, j < m ∧ ∃ st, e = Ev.frame ((k + j) * F) ((k + j) * O) st := by
  intro m
  induction m with
  | zero => intro k d e he; simp [chunkFrames] at he
  | succ m ih =>
    intro k d e he
    simp only [chunkFrames, List.mem_cons] at he
    rcases he with he | he
    · refine ⟨0, by omega, (step d ((input.drop (k * F)).take F)).status, ?_⟩
      simpa using he
    · obtain ⟨j, hj, st, hst⟩ := ih (k + 1) _ e he
      refine ⟨j + 1, by omega, st, ?_⟩
      have : k + 1 + j = k + (j + 1) := by omega
      rw [hst, this]

theorem decLoop_run {σ : Type} (step : σ → List Nat → CodecOut σ)
    (input : List Nat) (O : Nat)
    (hstep : ∀ (d : σ) (f : List Nat), ((step d f).bytes).length = O) :
    ∀ (m k : Nat) (d : σ) (out : List Nat) (tr : List Ev),
      k + m = input.length / output_byte_count →
      out.length = (input.length / output_byte_count) * O →
      decLoop step input O
        { dec := d, outBuf := List.replicate O 0, outArray := out,
          offset := k * O, trace := tr } (k * output_byte_count)
        = { dec := (chunkFrames step input output_byte_count O d k m).final
            outBuf := List.replicate O 0
            outArray := writeBytes out (k * O)
              (chunkFrames step input output_byte_count O d k m).outs.flatten
            offset := (k + m) * O
            trace := tr ++ (chunkFrames step input output_byte_count O d k m).evs } := by
  intro m
  induction m with
  | zero =>
    intro k d out tr hk hout
    rw [decLoop, dif_neg]
    · simp [chunkFrames, writeBytes_nil]
    · rw [loopGuard_iff input.length output_byte_count k (by decide)]
      omega
  | succ m ih =>
    intro k d out tr hk hout
    have hkn : k < input.length / output_byte_count := by omega
    rw [decLoop, dif_pos
      ((loopGuard_iff input.length output_byte_count k (by decide)).mpr hkn)]
    have hb : ((step d ((input.drop (k * output_byte_count)).take
        output_byte_count)).bytes).length = O := hstep d _
    have hfull1 : writeBytes (List.replicate O 0) 0
        (step d ((input.drop (k * output_byte_count)).take
          output_byte_count)).bytes
        = (step d ((input.drop (k * output_byte_count)).take
          output_byte_count)).bytes := by
      apply writeBytes_full
      simp [hb]
    have hfull2 : writeBytes (step d ((input.drop (k * output_byte_count)).take
        output_byte_count)).bytes 0 (List.replicate O 0)
        = List.replicate O 0 := by
      apply writeBytes_full
      simp [hb]
    have htake : ((step d ((input.drop (k * output_byte_count)).take
        output_byte_count)).bytes).take O
        = (step d ((input.drop (k * output_byte_count)).take
          output_byte_count)).bytes :=
      List.take_of_length_le (by omega)
    simp only [hfull1, hfull2, htake]
    have hle1 : k * O ≤ out.length := by
      rw [hout]
      exact Nat.mul_le_mul_right O (by omega)
    have hlen1 : (writeBytes out (k * O)
        (step d ((input.drop (k * output_byte_count)).take
          output_byte_count)).bytes).length = out.length := by
      apply writeBytes_length
      rw [hb, hout]
      have : k + 1 ≤ input.length / output_byte_count := by omega
      calc k * O + O = (k + 1) * O := by rw [Nat.succ_mul]
        _ ≤ (input.length / output_byte_count) * O := Nat.mul_le_mul_right O this
    have hoff : k * O + O = (k + 1) * O := by rw [Nat.succ_mul]
    have hidx : k * output_byte_count + output_byte_count
        = (k + 1) * output_byte_count := by rw [Nat.succ_mul]
    rw [hoff, hidx]
    rw [ih (k + 1) _ _ _ (by omega) (by rw [hlen1, hout])]
    have hcomp : writeBytes (writeBytes out (k * O)
        (step d ((input.drop (k * output_byte_count)).take
          output_byte_count)).bytes) ((k + 1) * O)
        (chunkFrames step input output_byte_count O
          (step d ((input.drop (k * output_byte_count)).take
            output_byte_count)).st (k + 1) m).outs.flatten
        = writeBytes out (k * O)
          ((step d ((input.drop (k * output_byte_count)).take
            output_byte_count)).bytes
            ++ (chunkFrames step input output_byte_count O
              (step d ((input.drop (k * output_byte_count)).take
                output_byte_count)).st (k + 1) m).outs.flatten) := by
      have h0 := writeBytes_append out
        (step d ((input.drop (k * output_byte_count)).take
          output_byte_count)).bytes
        (chunkFrames step input output_byte_count O
          (step d ((input.drop (k * output_byte_count)).take
            output_byte_count)).st (k + 1) m).outs.flatten
        (k * O) hle1
      rw [hb, hoff] at h0
      exact h0
    rw [hcomp]
    have harith : k + 1 + m = k + (m + 1) := by omega
    simp [chunkFrames, harith, List.append_assoc]

theorem encLoop_run {σ : Type} (step : σ → List Nat → CodecOut σ)
    (input : List Nat) (F : Nat) (hF : 0 < F)
    (hstep : ∀ (d : σ) (f : List Nat),
      ((step d f).bytes).length = encodedFrameSize) :
    ∀ (m k : Nat) (d : σ) (out : List Nat) (tr : List Ev),
      k + m = input.length / F →
      out.length = (input.length / F) * encodedFrameSize →
      encLoop step input F hF
        { enc := d, outArray := out, offset := k * encodedFrameSize,
          trace := tr } (k * F)
        = { enc := (chunkFrames step input F encodedFrameSize d k m).final
            outArray := writeBytes out (k * encodedFrameSize)
              (chunkFrames step input F encodedFrameSize d k m).outs.flatten
            offset := (k + m) * encodedFrameSize
            trace := tr
              ++ (chunkFrames step input F encodedFrameSize d k m).evs } := by
  intro m
  induction m with
  | zero =>
    intro k d out tr hk hout
    rw [encLoop, dif_neg]
    · simp [chunkFrames, writeBytes_nil]
    · rw [loopGuard_iff input.length F k hF]
      omega
  | succ m ih =>
    intro k d out tr hk hout
    have hkn : k < input.length / F := by omega
    rw [encLoop, dif_pos ((loopGuard_iff input.length F k hF).mpr hkn)]
    have hb : ((step d ((input.drop (k * F)).take F)).bytes).length
        = encodedFrameSize := hstep d _
    have hle1 : k * encodedFrameSize ≤ out.length := by
      rw [hout]
      exact Nat.mul_le_mul_right encodedFrameSize (by omega)
    have hlen1 : (writeBytes out (k * encodedFrameSize)
        (step d ((input.drop (k * F)).take F)).bytes).length = out.length := by
      apply writeBytes_length
      rw [hb, hout]
      have h1 : k + 1 ≤ input.length / F := by omega
      calc k * encodedFrameSize + encodedFrameSize
          = (k + 1) * encodedFrameSize := by rw [Nat.succ_mul]
        _ ≤ (input.length / F) * encodedFrameSize :=
          Nat.mul_le_mul_right encodedFrameSize h1
    have hoff : k * encodedFrameSize + encodedFrameSize
        = (k + 1) * encodedFrameSize := by rw [Nat.succ_mul]
    have hidx : k * F + F = (k + 1) * F := by rw [Nat.succ_mul]
    simp only [hoff, hidx]
    rw [ih (k + 1) _ _ _ (by omega) (by rw [hlen1, hout])]
    have hcomp : writeBytes (writeBytes out (k * encodedFrameSize)
        (step d ((input.drop (k * F)).take F)).bytes)
        ((k + 1) * encodedFrameSize)
        (chunkFrames step input F encodedFrameSize
          (step d ((input.drop (k * F)).take F)).st (k + 1) m).outs.flatten
        = writeBytes out (k * encodedFrameSize)
          ((step d ((input.drop (k * F)).take F)).bytes
            ++ (chunkFrames step input F encodedFrameSize
              (step d ((input.drop (k * F)).take F)).st
              (k + 1) m).outs.flatten) := by
      have h0 := writeBytes_append out
        (step d ((input.drop (k * F)).take F)).bytes
        (chunkFrames step input F encodedFrameSize
          (step d ((input.drop (k * F)).take F)).st (k + 1) m).outs.flatten
        (k * encodedFrameSize) hle1
      rw [hb, hoff] at h0
      exact h0
    rw [hcomp]
    have harith : k + 1 + m = k + (m + 1) := by omega
    simp [chunkFrames, harith, List.append_assoc]

theorem decodeLC3_eq {σ : Type} (step : σ → List Nat → CodecOut σ) (init : σ)
    (fs : Int) (input : List Nat)
    (hstep : ∀ (d : σ) (f : List Nat),
      ((step d f).bytes).length = bytesOfFrames fs) :
    decodeLC3 step init fs input
      = { result := (chunkFrames step input output_byte_count
            (bytesOfFrames fs) init 0
            (input.length / output_byte_count)).outs.flatten
          callerInput := input
          trace := Ev.setupDecoder ::
            ((chunkFrames step input output_byte_count (bytesOfFrames fs)
              init 0 (input.length / output_byte_count)).evs
              ++ [Ev.freeState])
          final := (chunkFrames step input output_byte_count
            (bytesOfFrames fs) init 0
            (input.length / output_byte_count)).final } := by
  have h0 := decLoop_run step input (bytesOfFrames fs) hstep
    (input.length / output_byte_count) 0 init
    (List.replicate ((input.length / output_byte_count) * bytesOfFrames fs) 0)
    [Ev.setupDecoder] (by omega) (by simp)
  simp only [Nat.zero_mul, Nat.zero_add] at h0
  have hflat : (chunkFrames step input output_byte_count (bytesOfFrames fs)
      init 0 (input.length / output_byte_count)).outs.flatten.length
      = (input.length / output_byte_count) * bytesOfFrames fs := by
    rw [flatten_length_uniform _ (bytesOfFrames fs)
      (chunkFrames_outs_sizes step input output_byte_count (bytesOfFrames fs)
        hstep _ 0 init),
      chunkFrames_outs_length]
  show decodeLC3 step init fs input = _
  simp only [decodeLC3]
  rw [h0]
  have hw : writeBytes
      (List.replicate ((input.length / output_byte_count) * bytesOfFrames fs) 0)
      0 (chunkFrames step input output_byte_count (bytesOfFrames fs) init 0
        (input.length / output_byte_count)).outs.flatten
      = (chunkFrames step input output_byte_count (bytesOfFrames fs) init 0
        (input.length / output_byte_count)).outs.flatten := by
    apply writeBytes_full
    simp [hflat]
  simp [hw, List.take_of_length_le (le_of_eq hflat)]

theorem encodeLC3_eq {σ : Type} (step : σ → List Nat → CodecOut σ) (init : σ)
    (fs : Int) (hF : 0 < bytesPerFrame fs) (pcm : List Nat)
    (hstep : ∀ (d : σ) (f : List Nat),
      ((step d f).bytes).length = encodedFrameSize) :
    encodeLC3 step init fs hF pcm
      = { result := (chunkFrames step pcm (bytesPerFrame fs)
            encodedFrameSize init 0
            (pcm.length / bytesPerFrame fs)).outs.flatten
          callerInput := pcm
          trace := Ev.setupEncoder ::
            ((chunkFrames step pcm (bytesPerFrame fs) encodedFrameSize init 0
              (pcm.length / bytesPerFrame fs)).evs ++ [Ev.freeState])
          final := (chunkFrames step pcm (bytesPerFrame fs) encodedFrameSize
            init 0 (pcm.length / bytesPerFrame fs)).final } := by
  have h0 := encLoop_run step pcm (bytesPerFrame fs) hF hstep
    (pcm.length / bytesPerFrame fs) 0 init
    (List.replicate ((pcm.length / bytesPerFrame fs) * encodedFrameSize) 0)
    [Ev.setupEncoder] (by omega) (by simp)
  simp only [Nat.zero_mul, Nat.zero_add] at h0
  have hflat : (chunkFrames step pcm (bytesPerFrame fs) encodedFrameSize
      init 0 (pcm.length / bytesPerFrame fs)).outs.flatten.length
      = (pcm.length / bytesPerFrame fs) * encodedFrameSize := by
    rw [flatten_length_uniform _ encodedFrameSize
      (chunkFrames_outs_sizes step pcm (bytesPerFrame fs) encodedFrameSize
        hstep _ 0 init),
      chunkFrames_outs_length]
  show encodeLC3 step init fs hF pcm = _
  simp only [encodeLC3]
  rw [h0]
  have hw : writeBytes
      (List.replicate ((pcm.length / bytesPerFrame fs) * encodedFrameSize) 0)
      0 (chunkFrames step pcm (bytesPerFrame fs) encodedFrameSize init 0
        (pcm.length / bytesPerFrame fs)).outs.flatten
      = (chunkFrames step pcm (bytesPerFrame fs) encodedFrameSize init 0
        (pcm.length / bytesPerFrame fs)).outs.flatten := by
    apply writeBytes_full
    simp [hflat]
  simp [hw, List.take_of_length_le (le_of_eq hflat)]

theorem chunkFrames_slice {σ : Type} (step : σ → List Nat → CodecOut σ)
    (input : List Nat) (F O : Nat)
    (hstep : ∀ (d : σ) (f : List Nat), ((step d f).bytes).length = O)
    (init : σ) (n j : Nat) (hj : j < n) :
    (((chunkFrames step input F O init 0 n).outs.flatten.drop (j * O)).take O
        = (step (stateAfter step input F O init j)
            ((input.drop (j * F)).take F)).bytes)
    ∧ stateAfter step input F O init (j + 1)
        = (step (stateAfter step input F O init j)
            ((input.drop (j * F)).take F)).st := by
  have hsplit := chunkFrames_split step input F O j (n - j) init 0
  have hn : j + (n - j) = n := by omega
  rw [hn] at hsplit
  have hm : n - j = (n - j - 1) + 1 := by omega
  have hA : (chunkFrames step input F O init 0 j).final
      = stateAfter step input F O init j := rfl
  constructor
  · rw [hsplit]
    simp only [Nat.zero_add] at hsplit ⊢
    rw [hm]
    simp only [chunkFrames, hA, List.flatten_append, List.flatten_cons]
    have hlenA : (chunkFrames step input F O init 0 j).outs.flatten.length
        = j * O := by
      rw [flatten_length_uniform _ O
        (chunkFrames_outs_sizes step input F O hstep j 0 init),
        chunkFrames_outs_length]
    have hblen : ((step (stateAfter step input F O init j)
        ((input.drop (j * F)).take F)).bytes).length = O := hstep _ _
    rw [List.drop_append_eq_append_drop,
      List.drop_eq_nil_of_le (le_of_eq hlenA), hlenA, Nat.sub_self,
      List.drop_zero, List.nil_append,
      List.take_append_eq_append_take,
      List.take_of_length_le (le_of_eq hblen), hblen, Nat.sub_self,
      List.take_zero, List.append_nil]
  · show (chunkFrames step input F O init 0 (j + 1)).final = _
    have hsplit1 := chunkFrames_split step input F O j 1 init 0
    rw [Nat.zero_add] at hsplit1
    rw [hsplit1, hA]
    simp [chunkFrames]

theorem chunkFrames_take {σ : Type} (step : σ → List Nat → CodecOut σ)
    (input : List Nat) (F O : Nat) (hF : 0 < F) :
    ∀ (m k : Nat) (d : σ), k + m ≤ input.length / F →
      chunkFrames step (input.take (input.length / F * F)) F O d k m
        = chunkFrames step input F O d k m := by
  intro m
  induction m with
  | zero => intro k d hk; rfl
  | succ m ih =>
    intro k d hk
    have hslice : ((input.take (input.length / F * F)).drop (k * F)).take F
        = (input.drop (k * F)).take F := by
      rw [List.drop_take]
      rw [List.take_take]
      congr 1
      have h1 : (k + 1) * F ≤ input.length / F * F :=
        Nat.mul_le_mul_right F (by omega)
      rw [Nat.succ_mul] at h1
      omega
    simp only [chunkFrames, hslice]
    rw [ih (k + 1) _ (by omega)]

theorem chunkFrames_ignoreStatus {σ : Type} (step : σ → List Nat → CodecOut σ)
    (input : List Nat) (F O : Nat) :
    ∀ (m k : Nat) (d : σ),
      (chunkFrames (ignoreStatus step) input F O d k m).outs
          = (chunkFrames step input F O d k m).outs
      ∧ (chunkFrames (ignoreStatus step) input F O d k m).final
          = (chunkFrames step input F O d k m).final := by
  intro m
  induction m with
  | zero => intro k d; exact ⟨rfl, rfl⟩
  | succ m ih =>
    intro k d
    simp only [chunkFrames, ignoreStatus]
    exact ⟨by rw [(ih (k + 1) _).1], (ih (k + 1) _).2⟩

theorem wStepD_len :
    ∀ (d : Unit) (f : List Nat),
      ((wStepD d f).bytes).length = bytesOfFrames 160 := by
  intro d f
  show (List.replicate 320 (0 : Nat)).length = bytesOfFrames 160
  rw [List.length_replicate]
  rfl

theorem wStepE_len :
    ∀ (d : Unit) (f : List Nat),
      ((wStepE d f).bytes).length = encodedFrameSize := by
  intro d f
  show (List.replicate 20 (0 : Nat)).length = encodedFrameSize
  rw [List.length_replicate]
  rfl

theorem failStep_len :
    ∀ (d : Unit) (f : List Nat),
      ((failStep d f).bytes).length = bytesOfFrames 160 := by
  intro d f
  show (List.replicate 320 (0 : Nat)).length = bytesOfFrames 160
  rw [List.length_replicate]
  rfl

theorem w_hF : 0 < bytesPerFrame 160 := by decide

/-- C1: for every input byte sequence, `decodeLC3` (fixed geometry: 10000 µs
frames, 16000 Hz, 20-byte encoded input frames) returns a buffer of exactly
`(L / 20) * bytesOfFrames` bytes, and `encodeLC3` returns exactly
`(L / bytesPerFrame) * 20` bytes; for `L` shorter than one input frame the
division truncates to zero frames, so the result is the zero-length buffer
and the output length is always an exact multiple of the output frame
size.  (`hD`/`hE` record the library contract that a frame primitive fills
exactly one output frame.) -/
theorem claim_C1 {σ τ : Type} (stepD : σ → List Nat → CodecOut σ)
    (stepE : τ → List Nat → CodecOut τ) (initD : σ) (initE : τ) (fs : Int)
    (input pcm : List Nat)
    (hD : ∀ (d : σ) (f : List Nat),
      ((stepD d f).bytes).length = bytesOfFrames fs)
    (hE : ∀ (d : τ) (f : List Nat),
      ((stepE d f).bytes).length = encodedFrameSize)
    (hF : 0 < bytesPerFrame fs) :
    (decodeLC3 stepD initD fs input).result.length
        = (input.length / output_byte_count) * bytesOfFrames fs
    ∧ (encodeLC3 stepE initE fs hF pcm).result.length
        = (pcm.length / bytesPerFrame fs) * encodedFrameSize := by
  constructor
  · have hlen := flatten_length_uniform
      ((chunkFrames stepD input output_byte_count (bytesOfFrames fs) initD 0
        (input.length / output_byte_count)).outs) (bytesOfFrames fs)
      (chunkFrames_outs_sizes stepD input output_byte_count (bytesOfFrames fs)
        hD _ 0 initD)
    rw [chunkFrames_outs_length] at hlen
    rw [decodeLC3_eq stepD initD fs input hD]
    exact hlen
  · have hlen := flatten_length_uniform
      ((chunkFrames stepE pcm (bytesPerFrame fs) encodedFrameSize initE 0
        (pcm.length / bytesPerFrame fs)).outs) encodedFrameSize
      (chunkFrames_outs_sizes stepE pcm (bytesPerFrame fs) encodedFrameSize
        hE _ 0 initE)
    rw [chunkFrames_outs_length] at hlen
    rw [encodeLC3_eq stepE initE fs hF pcm hE]
    exact hlen

/-- C1 witness: the theorem instantiated with a concrete codec (success
status, one full zero frame per invocation), `fs = 160` (the value the
library reports for 10000 µs at 16000 Hz), a 40-byte decode input and a
320-byte encode input. -/
theorem claim_C1_witness :
    (decodeLC3 wStepD () 160 wInput).result.length
        = (wInput.length / output_byte_count) * bytesOfFrames 160
    ∧ (encodeLC3 wStepE () 160 w_hF wPcm).result.length
        = (wPcm.length / bytesPerFrame 160) * encodedFrameSize :=
  claim_C1 wStepD wStepE () () 160 wInput wPcm wStepD_len wStepE_len w_hF

/-- C2: in both stream calls the frames are processed strictly sequentially
in ascending order against the single live codec state: frame `j` receives
the state threaded through frames `0 .. j-1` (`stateAfter … j`, with
`stateAfter … (j+1)` the state its own invocation returns), consumes
exactly the input slice starting at `j * inputFrameSize` of one frame
length, and its result is exactly the output slice starting at
`j * outputFrameSize` of one output frame length. -/
theorem claim_C2 {σ τ : Type} (stepD : σ → List Nat → CodecOut σ)
    (stepE : τ → List Nat → CodecOut τ) (initD : σ) (initE : τ) (fs : Int)
    (input pcm : List Nat)
    (hD : ∀ (d : σ) (f : List Nat),
      ((stepD d f).bytes).length = bytesOfFrames fs)
    (hE : ∀ (d : τ) (f : List Nat),
      ((stepE d f).bytes).length = encodedFrameSize)
    (hF : 0 < bytesPerFrame fs) :
    (∀ j, j < input.length / output_byte_count →
      (((decodeLC3 stepD initD fs input).result.drop
          (j * bytesOfFrames fs)).take (bytesOfFrames fs)
          = (stepD (stateAfter stepD input output_byte_count
              (bytesOfFrames fs) initD j)
              ((input.drop (j * output_byte_count)).take
                output_byte_count)).bytes
        ∧ stateAfter stepD input output_byte_count (bytesOfFrames fs)
            initD (j + 1)
          = (stepD (stateAfter stepD input output_byte_count
              (bytesOfFrames fs) initD j)
              ((input.drop (j * output_byte_count)).take
                output_byte_count)).st))
    ∧ (∀ j, j < pcm.length / bytesPerFrame fs →
      (((encodeLC3 stepE initE fs hF pcm).result.drop
          (j * encodedFrameSize)).take encodedFrameSize
          = (stepE (stateAfter stepE pcm (bytesPerFrame fs)
              encodedFrameSize initE j)
              ((pcm.drop (j * bytesPerFrame fs)).take
                (bytesPerFrame fs))).bytes
        ∧ stateAfter stepE pcm (bytesPerFrame fs) encodedFrameSize initE
            (j + 1)
          = (stepE (stateAfter stepE pcm (bytesPerFrame fs)
              encodedFrameSize initE j)
              ((pcm.drop (j * bytesPerFrame fs)).take
                (bytesPerFrame fs))).st)) := by
  constructor
  · intro j hj
    rw [decodeLC3_eq stepD initD fs input hD]
    exact ⟨(chunkFrames_slice stepD input output_byte_count (bytesOfFrames fs)
        hD initD _ j hj).1,
      (chunkFrames_slice stepD input output_byte_count (bytesOfFrames fs)
        hD initD _ j hj).2⟩
  · intro j hj
    rw [encodeLC3_eq stepE initE fs hF pcm hE]
    exact ⟨(chunkFrames_slice stepE pcm (bytesPerFrame fs) encodedFrameSize
        hE initE _ j hj).1,
      (chunkFrames_slice stepE pcm (bytesPerFrame fs) encodedFrameSize
        hE initE _ j hj).2⟩

set_option maxRecDepth 4000 in
/-- C2 witness: the theorem applied at frame index 0 of the concrete
instances. -/
theorem claim_C2_witness :
    ((decodeLC3 wStepD () 160 wInput).result.drop
        (0 * bytesOfFrames 160)).take (bytesOfFrames 160)
        = (wStepD (stateAfter wStepD wInput output_byte_count
            (bytesOfFrames 160) () 0)
            ((wInput.drop (0 * output_byte_count)).take
              output_byte_count)).bytes
    ∧ ((encodeLC3 wStepE () 160 w_hF wPcm).result.drop
        (0 * encodedFrameSize)).take encodedFrameSize
        = (wStepE (stateAfter wStepE wPcm (bytesPerFrame 160)
            encodedFrameSize () 0)
            ((wPcm.drop (0 * bytesPerFrame 160)).take
              (bytesPerFrame 160))).bytes :=
  ⟨((claim_C2 wStepD wStepE () () 160 wInput wPcm wStepD_len wStepE_len
      w_hF).1 0 (by decide)).1,
   ((claim_C2 wStepD wStepE () () 160 wInput wPcm wStepD_len wStepE_len
      w_hF).2 0 (by decide)).1⟩

/-- C3: trailing remainder bytes shorter than one input frame are silently
dropped: each stream call returns exactly the output it returns for the
input truncated to its complete frames, with no error and no carry-over
(each call is a pure function of its own input). -/
theorem claim_C3 {σ τ : Type} (stepD : σ → List Nat → CodecOut σ)
    (stepE : τ → List Nat → CodecOut τ) (initD : σ) (initE : τ) (fs : Int)
    (input pcm : List Nat)
    (hD : ∀ (d : σ) (f : List Nat),
      ((stepD d f).bytes).length = bytesOfFrames fs)
    (hE : ∀ (d : τ) (f : List Nat),
      ((stepE d f).bytes).length = encodedFrameSize)
    (hF : 0 < bytesPerFrame fs) :
    (decodeLC3 stepD initD fs input).result
        = (decodeLC3 stepD initD fs
            (input.take (input.length / output_byte_count
              * output_byte_count))).result
    ∧ (encodeLC3 stepE initE fs hF pcm).result
        = (encodeLC3 stepE initE fs hF
            (pcm.take (pcm.length / bytesPerFrame fs
              * bytesPerFrame fs))).result := by
  constructor
  · have hn : (input.take (input.length / output_byte_count
        * output_byte_count)).length
        = input.length / output_byte_count * output_byte_count := by
      rw [List.length_take]
      exact Nat.min_eq_left (Nat.div_mul_le_self _ _)
    have hdiv : input.length / output_byte_count * output_byte_count
        / output_byte_count = input.length / output_byte_count :=
      Nat.mul_div_cancel _ (by decide)
    have hchunk := chunkFrames_take stepD input output_byte_count
      (bytesOfFrames fs) (by decide) (input.length / output_byte_count) 0
      initD (by omega)
    simp only [decodeLC3_eq stepD initD fs input hD,
      decodeLC3_eq stepD initD fs
        (input.take (input.length / output_byte_count * output_byte_count))
        hD]
    rw [hn, hdiv, hchunk]
  · have hn : (pcm.take (pcm.length / bytesPerFrame fs
        * bytesPerFrame fs)).length
        = pcm.length / bytesPerFrame fs * bytesPerFrame fs := by
      rw [List.length_take]
      exact Nat.min_eq_left (Nat.div_mul_le_self _ _)
    have hdiv : pcm.length / bytesPerFrame fs * bytesPerFrame fs
        / bytesPerFrame fs = pcm.length / bytesPerFrame fs :=
      Nat.mul_div_cancel _ hF
    have hchunk := chunkFrames_take stepE pcm (bytesPerFrame fs)
      encodedFrameSize hF (pcm.length / bytesPerFrame fs) 0 initE (by omega)
    simp only [encodeLC3_eq stepE initE fs hF pcm hE,
      encodeLC3_eq stepE initE fs hF
        (pcm.take (pcm.length / bytesPerFrame fs * bytesPerFrame fs)) hE]
    rw [hn, hdiv, hchunk]

/-- C3 witness: the theorem instantiated at a 25-byte decode input (one
complete 20-byte frame plus a dropped 5-byte remainder). -/
theorem claim_C3_witness :
    (decodeLC3 wStepD () 160 wInput25).result
        = (decodeLC3 wStepD () 160
            (wInput25.take (wInput25.length / output_byte_count
              * output_byte_count))).result
    ∧ (encodeLC3 wStepE () 160 w_hF wPcm).result
        = (encodeLC3 wStepE () 160 w_hF
            (wPcm.take (wPcm.length / bytesPerFrame 160
              * bytesPerFrame 160))).result :=
  claim_C3 wStepD wStepE () () 160 wInput25 wPcm wStepD_len wStepE_len w_hF

set_option maxRecDepth 8000 in
/-- C4 counterexample: with a codec primitive that reports failure (status
`-1`) on every frame, `decodeLC3` on a 40-byte input still returns a full
640-byte output buffer, and its trace records that frame 0's invocation
returned `-1`: the stream call does not fail, no error is surfaced, and a
(garbage) output buffer is returned — contradicting the claim that a
per-frame codec failure makes the whole stream call fail with an error
identifying the failing frame. -/
theorem claim_C4_counterexample :
    (decodeLC3 failStep () 160 (List.replicate 40 0)).result.length = 640
    ∧ Ev.frame 0 0 (-1)
        ∈ (decodeLC3 failStep () 160 (List.replicate 40 0)).trace := by
  rw [decodeLC3_eq failStep () 160 (List.replicate 40 0) failStep_len]
  constructor
  · decide
  · decide

/-- C4 amended: the source discards the status returned by the per-frame
codec primitive (`lc3_decode` / `lc3_encode`): a failing frame neither
aborts the stream call nor is surfaced to the caller, and the returned
buffer is identical to the one produced by a codec reporting success
(status 0) on every frame. -/
theorem claim_C4 {σ τ : Type} (stepD : σ → List Nat → CodecOut σ)
    (stepE : τ → List Nat → CodecOut τ) (initD : σ) (initE : τ) (fs : Int)
    (input pcm : List Nat)
    (hD : ∀ (d : σ) (f : List Nat),
      ((stepD d f).bytes).length = bytesOfFrames fs)
    (hE : ∀ (d : τ) (f : List Nat),
      ((stepE d f).bytes).length = encodedFrameSize)
    (hF : 0 < bytesPerFrame fs) :
    (decodeLC3 stepD initD fs input).result
        = (decodeLC3 (ignoreStatus stepD) initD fs input).result
    ∧ (encodeLC3 stepE initE fs hF pcm).result
        = (encodeLC3 (ignoreStatus stepE) initE fs hF pcm).result := by
  have hD' : ∀ (d : σ) (f : List Nat),
      (((ignoreStatus stepD) d f).bytes).length = bytesOfFrames fs :=
    fun d f => hD d f
  have hE' : ∀ (d : τ) (f : List Nat),
      (((ignoreStatus stepE) d f).bytes).length = encodedFrameSize :=
    fun d f => hE d f
  constructor
  · simp only [decodeLC3_eq stepD initD fs input hD,
      decodeLC3_eq (ignoreStatus stepD) initD fs input hD']
    rw [(chunkFrames_ignoreStatus stepD input output_byte_count
      (bytesOfFrames fs) (input.length / output_byte_count) 0 initD).1]
  · simp only [encodeLC3_eq stepE initE fs hF pcm hE,
      encodeLC3_eq (ignoreStatus stepE) initE fs hF pcm hE']
    rw [(chunkFrames_ignoreStatus stepE pcm (bytesPerFrame fs)
      encodedFrameSize (pcm.length / bytesPerFrame fs) 0 initE).1]

/-- C4 witness: the amended theorem at the concrete instances. -/
theorem claim_C4_witness :
    (decodeLC3 wStepD () 160 wInput).result
        = (decodeLC3 (ignoreStatus wStepD) () 160 wInput).result
    ∧ (encodeLC3 wStepE () 160 w_hF wPcm).result
        = (encodeLC3 (ignoreStatus wStepE) () 160 w_hF wPcm).result :=
  claim_C4 wStepD wStepE () () 160 wInput wPcm wStepD_len wStepE_len w_hF

/-- C5 counterexample: `rnNoise` called on a 3-sample frame — a length
different from the denoiser's fixed native frame size — still performs the
library invocation: the call record shows `rnnoise_process_frame` receiving
the wrong-length frame, and the returned data is whatever the library
produces on it (two libraries differing only there give different results),
so the call is not rejected before the library is invoked. -/
theorem claim_C5_counterexample :
    ([0, 0, 0] : List Int).length ≠ rnFrameSize
    ∧ (rnNoise incrProc () (JFloatArray.mk 0 [0, 0, 0])).call.frameArg
        = [0, 0, 0]
    ∧ (rnNoise incrProc () (JFloatArray.mk 0 [0, 0, 0])).returned.data
        = [1, 1, 1]
    ∧ (rnNoise idProc () (JFloatArray.mk 0 [0, 0, 0])).returned.data
        = [0, 0, 0] := by
  refine ⟨by decide, rfl, by decide, by decide⟩

/-- C5 amended: `rnNoise` performs no length validation whatsoever: for
every frame, of any length, the underlying `rnnoise_process_frame` is
invoked exactly once, with the caller's buffer as both output and input
pointer and with the frame content exactly as given (a wrong-length frame
is passed straight to the library instead of being rejected). -/
theorem claim_C5 {σ α : Type} (proc : σ → List α → σ × List α) (st : σ)
    (a : JFloatArray α) :
    (rnNoise proc st a).call = RnCall.mk a.ref a.ref a.data := rfl

/-- C6: the denoise operation is performed in place: the library is invoked
with the caller's buffer as both its output and its input pointer, the very
same array object that was passed in is returned (same object identity),
the caller's array afterwards is that returned object, and its contents are
the library's output on the original data — the original input contents are
not preserved (witnessed concretely by a sample-incrementing library). -/
theorem claim_C6 {σ α : Type} (proc : σ → List α → σ × List α) (st : σ)
    (a : JFloatArray α) :
    (rnNoise proc st a).returned.ref = a.ref
    ∧ (rnNoise proc st a).call.outRef = (rnNoise proc st a).call.inRef
    ∧ (rnNoise proc st a).call.inRef = a.ref
    ∧ (rnNoise proc st a).returned.data = (proc st a.data).2
    ∧ (rnNoise proc st a).callerArray = (rnNoise proc st a).returned
    ∧ (rnNoise incrProc () (JFloatArray.mk 0 [0])).callerArray.data
        ≠ [(0 : Int)] :=
  ⟨rfl, rfl, rfl, rfl, rfl, by decide⟩

/-- C7: for the fixed geometry both entry points derive the same frame
sizes: the stored samples-per-frame equals the value `fs` the codec
library's frame-size formula reports (whenever it fits a `uint16_t`, as the
actual value 160 does), bytes-per-frame is samples-per-frame times 2
(16-bit PCM), and the decode-path and encode-path computations
(`sampleOfFrames`/`bytesOfFrames` vs `samplesPerFrame`/`bytesPerFrame`) are
identical functions of `fs`, hence deterministic across calls. -/
theorem claim_C7 (fs : Int) (h0 : 0 ≤ fs) (h1 : fs < 32768) :
    (sampleOfFrames fs : Int) = fs
    ∧ bytesOfFrames fs = sampleOfFrames fs * 2
    ∧ samplesPerFrame fs = sampleOfFrames fs
    ∧ bytesPerFrame fs = bytesOfFrames fs := by
  have hs : (sampleOfFrames fs : Int) = fs := by
    unfold sampleOfFrames
    omega
  have hv : sampleOfFrames fs < 32768 := by
    unfold sampleOfFrames
    omega
  refine ⟨hs, ?_, rfl, rfl⟩
  unfold bytesOfFrames
  exact Nat.mod_eq_of_lt (by omega)

/-- C7 witness: the theorem at the value the library actually reports for
(10000 µs, 16000 Hz), `fs = 160`. -/
theorem claim_C7_witness :
    (sampleOfFrames 160 : Int) = 160
    ∧ bytesOfFrames 160 = sampleOfFrames 160 * 2
    ∧ samplesPerFrame 160 = sampleOfFrames 160
    ∧ bytesPerFrame 160 = bytesOfFrames 160 :=
  claim_C7 160 (by decide) (by decide)

/-- C8: both stream calls leave the caller's input array unchanged: the
loops only read the pinned input bytes and the release uses `JNI_ABORT`,
which discards the native copy without writing back, so after the call the
caller's array holds exactly its original contents. -/
theorem claim_C8 {σ τ : Type} (stepD : σ → List Nat → CodecOut σ)
    (stepE : τ → List Nat → CodecOut τ) (initD : σ) (initE : τ) (fs : Int)
    (input pcm : List Nat) (hF : 0 < bytesPerFrame fs) :
    (decodeLC3 stepD initD fs input).callerInput = input
    ∧ (encodeLC3 stepE initE fs hF pcm).callerInput = pcm :=
  ⟨rfl, rfl⟩

/-- C8 witness: the theorem at the concrete instances. -/
theorem claim_C8_witness :
    (decodeLC3 wStepD () 160 wInput).callerInput = wInput
    ∧ (encodeLC3 wStepE () 160 w_hF wPcm).callerInput = wPcm :=
  claim_C8 wStepD wStepE () () 160 wInput wPcm w_hF

theorem frameBounds (L F O n j : Nat) (hF : 0 < F) (hn : n = L / F)
    (hj : j < n) :
    j * F + F ≤ L ∧ j * O + O ≤ n * O := by
  constructor
  · have h1 : j + 1 ≤ L / F := by omega
    have h2 := (Nat.le_div_iff_mul_le hF).mp h1
    rw [Nat.succ_mul] at h2
    exact h2
  · have h3 : (j + 1) * O ≤ n * O := Nat.mul_le_mul_right O (by omega)
    rw [Nat.succ_mul] at h3
    exact h3

/-- C9: in every stream call the codec state is set up at the start of the
call, before any frame operation; every frame operation of the call happens
between that setup and the single release; the state memory is released
exactly once, after the last frame operation and before the call returns
(the release is the final event, so the state is never used after it); and
no codec state persists across top-level calls: the call's frame chain
starts from the freshly set-up state `init`, so its final state is exactly
the state reached by threading `init` through this call's own frames. -/
theorem claim_C9 {σ τ : Type} (stepD : σ → List Nat → CodecOut σ)
    (stepE : τ → List Nat → CodecOut τ) (initD : σ) (initE : τ) (fs : Int)
    (input pcm : List Nat)
    (hD : ∀ (d : σ) (f : List Nat),
      ((stepD d f).bytes).length = bytesOfFrames fs)
    (hE : ∀ (d : τ) (f : List Nat),
      ((stepE d f).bytes).length = encodedFrameSize)
    (hF : 0 < bytesPerFrame fs) :
    ((∃ l, (decodeLC3 stepD initD fs input).trace
        = Ev.setupDecoder :: (l ++ [Ev.freeState])
      ∧ l.length = input.length / output_byte_count
      ∧ ∀ e ∈ l, ∃ a b c, e = Ev.frame a b c)
    ∧ (decodeLC3 stepD initD fs input).final
        = stateAfter stepD input output_byte_count (bytesOfFrames fs) initD
          (input.length / output_byte_count))
    ∧ ((∃ l, (encodeLC3 stepE initE fs hF pcm).trace
        = Ev.setupEncoder :: (l ++ [Ev.freeState])
      ∧ l.length = pcm.length / bytesPerFrame fs
      ∧ ∀ e ∈ l, ∃ a b c, e = Ev.frame a b c)
    ∧ (encodeLC3 stepE initE fs hF pcm).final
        = stateAfter stepE pcm (bytesPerFrame fs) encodedFrameSize initE
          (pcm.length / bytesPerFrame fs)) := by
  constructor
  · rw [decodeLC3_eq stepD initD fs input hD]
    refine ⟨⟨(chunkFrames stepD input output_byte_count (bytesOfFrames fs)
      initD 0 (input.length / output_byte_count)).evs, rfl,
      chunkFrames_evs_length stepD input output_byte_count (bytesOfFrames fs)
        _ 0 initD, ?_⟩, rfl⟩
    intro e he
    obtain ⟨j, hj, st, hst⟩ := chunkFrames_evs_mem stepD input
      output_byte_count (bytesOfFrames fs) _ 0 initD e he
    exact ⟨(0 + j) * output_byte_count, (0 + j) * bytesOfFrames fs, st, hst⟩
  · rw [encodeLC3_eq stepE initE fs hF pcm hE]
    refine ⟨⟨(chunkFrames stepE pcm (bytesPerFrame fs) encodedFrameSize
      initE 0 (pcm.length / bytesPerFrame fs)).evs, rfl,
      chunkFrames_evs_length stepE pcm (bytesPerFrame fs) encodedFrameSize
        _ 0 initE, ?_⟩, rfl⟩
    intro e he
    obtain ⟨j, hj, st, hst⟩ := chunkFrames_evs_mem stepE pcm
      (bytesPerFrame fs) encodedFrameSize _ 0 initE e he
    exact ⟨(0 + j) * bytesPerFrame fs, (0 + j) * encodedFrameSize, st, hst⟩

/-- C9 witness: the lifecycle theorem's fresh-state conjuncts at the
concrete instances. -/
theorem claim_C9_witness :
    (decodeLC3 wStepD () 160 wInput).final
        = stateAfter wStepD wInput output_byte_count (bytesOfFrames 160) ()
          (wInput.length / output_byte_count)
    ∧ (encodeLC3 wStepE () 160 w_hF wPcm).final
        = stateAfter wStepE wPcm (bytesPerFrame 160) encodedFrameSize ()
          (wPcm.length / bytesPerFrame 160) :=
  ⟨(claim_C9 wStepD wStepE () () 160 wInput wPcm wStepD_len wStepE_len
      w_hF).1.2,
   (claim_C9 wStepD wStepE () () 160 wInput wPcm wStepD_len wStepE_len
      w_hF).2.2⟩

/-- C10: for every input length, including lengths shorter than one frame,
each chunking loop performs exactly `L / inputFrameSize` iterations (the
`int` guard `i <= L - frameSize` is evaluated in signed arithmetic, so a
short input yields zero iterations rather than a wrapped bound), every
frame event's input offset stays a full frame inside the `L` input bytes,
and every output offset stays a full output frame inside the
`(L / inputFrameSize) * outputFrameSize` allocated output bytes. -/
theorem claim_C10 {σ τ : Type} (stepD : σ → List Nat → CodecOut σ)
    (stepE : τ → List Nat → CodecOut τ) (initD : σ) (initE : τ) (fs : Int)
    (input pcm : List Nat)
    (hD : ∀ (d : σ) (f : List Nat),
      ((stepD d f).bytes).length = bytesOfFrames fs)
    (hE : ∀ (d : τ) (f : List Nat),
      ((stepE d f).bytes).length = encodedFrameSize)
    (hF : 0 < bytesPerFrame fs) :
    ((decodeLC3 stepD initD fs input).trace.countP isFrameEv
        = input.length / output_byte_count
      ∧ ∀ a b c, Ev.frame a b c ∈ (decodeLC3 stepD initD fs input).trace →
          a + output_byte_count ≤ input.length
          ∧ b + bytesOfFrames fs
            ≤ (input.length / output_byte_count) * bytesOfFrames fs)
    ∧ ((encodeLC3 stepE initE fs hF pcm).trace.countP isFrameEv
        = pcm.length / bytesPerFrame fs
      ∧ ∀ a b c, Ev.frame a b c ∈ (encodeLC3 stepE initE fs hF pcm).trace →
          a + bytesPerFrame fs ≤ pcm.length
          ∧ b + encodedFrameSize
            ≤ (pcm.length / bytesPerFrame fs) * encodedFrameSize) := by
  constructor
  · rw [decodeLC3_eq stepD initD fs input hD]
    constructor
    · simp only [List.countP_cons, List.countP_append, isFrameEv]
      rw [List.countP_eq_length.mpr, chunkFrames_evs_length]
      · rfl
      · intro e he
        obtain ⟨j, hj, st, hst⟩ := chunkFrames_evs_mem stepD input
          output_byte_count (bytesOfFrames fs) _ 0 initD e he
        rw [hst]
        rfl
    · intro a b c hmem
      simp only [List.mem_cons, List.mem_append, List.mem_singleton] at hmem
      rcases hmem with hmem | hmem | hmem
      · exact absurd hmem (by simp)
      · obtain ⟨j, hj, st, hst⟩ := chunkFrames_evs_mem stepD input
          output_byte_count (bytesOfFrames fs) _ 0 initD _ hmem
        rw [Nat.zero_add] at hst
        obtain ⟨ha, hb, _⟩ := Ev.frame.inj hst
        rw [ha, hb]
        exact frameBounds input.length output_byte_count (bytesOfFrames fs)
          (input.length / output_byte_count) j (by decide) rfl hj
      · exact absurd hmem (by simp)
  · rw [encodeLC3_eq stepE initE fs hF pcm hE]
    constructor
    · simp only [List.countP_cons, List.countP_append, isFrameEv]
      rw [List.countP_eq_length.mpr, chunkFrames_evs_length]
      · rfl
      · intro e he
        obtain ⟨j, hj, st, hst⟩ := chunkFrames_evs_mem stepE pcm
          (bytesPerFrame fs) encodedFrameSize _ 0 initE e he
        rw [hst]
        rfl
    · intro a b c hmem
      simp only [List.mem_cons, List.mem_append, List.mem_singleton] at hmem
      rcases hmem with hmem | hmem | hmem
      · exact absurd hmem (by simp)
      · obtain ⟨j, hj, st, hst⟩ := chunkFrames_evs_mem stepE pcm
          (bytesPerFrame fs) encodedFrameSize _ 0 initE _ hmem
        rw [Nat.zero_add] at hst
        obtain ⟨ha, hb, _⟩ := Ev.frame.inj hst
        rw [ha, hb]
        exact frameBounds pcm.length (bytesPerFrame fs) encodedFrameSize
          (pcm.length / bytesPerFrame fs) j hF rfl hj
      · exact absurd hmem (by simp)

/-- C10 witness: the iteration-count conjuncts at the concrete instances. -/
theorem claim_C10_witness :
    (decodeLC3 wStepD () 160 wInput).trace.countP isFrameEv
        = wInput.length / output_byte_count
    ∧ (encodeLC3 wStepE () 160 w_hF wPcm).trace.countP isFrameEv
        = wPcm.length / bytesPerFrame 160 :=
  ⟨(claim_C10 wStepD wStepE () () 160 wInput wPcm wStepD_len wStepE_len
      w_hF).1.1,
   (claim_C10 wStepD wStepE () () 160 wInput wPcm wStepD_len wStepE_len
      w_hF).2.1⟩

end LibLC3
